import Mathlib

/-!
Verification of the key-sequence resolver of the carrier-pigeon TUI
(crate carrier-pigeon-tui, module keymap).

The development shallowly embeds the Rust source:
- `KeyCode`, `KeyEvent` with the derived / hand-written total order
  (variant rank, then payload, then modifier bits);
- `Keymap` as the sorted association list underlying the `BTreeMap`,
  with `entriesWithPrefix` and `get` translated from the range /
  take_while code;
- `KeymapHandler.next` as a step function on the handler state, the
  awaited event (new key, timeout, channel closure) being an explicit
  input;
- the nom parser combinators used by `parse_key` / `parse_key_sequence`.

Modifier sets are the crossterm bit masks (SHIFT = 1, CONTROL = 2,
ALT = 4, META = 32) represented as natural numbers.
-/

namespace CarrierPigeon

theorem char_toNat_inj {a b : Char} (h : a.toNat = b.toNat) : a = b := by
  have ha := Char.ofNat_toNat a
  have hb := Char.ofNat_toNat b
  rw [← ha, ← hb, h]

/-- Rust enum `KeyCode` from carrier-pigeon-tui/src/keymap.rs. -/
inductive KeyCode where
  | Char (c : Char)
  | Backspace
  | Delete
  | Enter
  | Left
  | Right
  | Up
  | Down
  | Home
  | End
  | PageUp
  | PageDown
  | Tab
  | Insert
  | Escape
  | F (n : Nat)
  | Unknown
deriving DecidableEq

namespace KeyCode

/-- Variant index of the derived `Ord` on `KeyCode` (declaration order). -/
def rank : KeyCode → Nat
  | .Char _ => 0
  | .Backspace => 1
  | .Delete => 2
  | .Enter => 3
  | .Left => 4
  | .Right => 5
  | .Up => 6
  | .Down => 7
  | .Home => 8
  | .End => 9
  | .PageUp => 10
  | .PageDown => 11
  | .Tab => 12
  | .Insert => 13
  | .Escape => 14
  | .F _ => 15
  | .Unknown => 16

/-- Payload compared by the derived `Ord` within a variant:
`Char` by code point, `F` by numeric value. -/
def payload : KeyCode → Nat
  | .Char c => c.toNat
  | .F n => n
  | _ => 0

theorem eq_of_rank_payload {a b : KeyCode} (h1 : a.rank = b.rank)
    (h2 : a.payload = b.payload) : a = b := by
  cases a <;> cases b <;> simp_all [rank, payload]
  exact char_toNat_inj h2

end KeyCode

/-- Rust struct `KeyEvent`: a key code plus crossterm modifier bits. -/
structure KeyEvent where
  code : KeyCode
  modifiers : Nat
deriving DecidableEq

namespace KeyEvent

/-- The hand-written `Ord for KeyEvent`: code first (variant rank then
payload), then the modifier bit pattern. -/
def Lt (a b : KeyEvent) : Prop :=
  a.code.rank < b.code.rank ∨
    (a.code.rank = b.code.rank ∧
      (a.code.payload < b.code.payload ∨
        (a.code.payload = b.code.payload ∧ a.modifiers < b.modifiers)))

instance (a b : KeyEvent) : Decidable (a.Lt b) :=
  inferInstanceAs (Decidable (_ ∨ _))

theorem Lt.irrefl (a : KeyEvent) : ¬ a.Lt a := by
  simp [Lt]

theorem Lt.trans {a b c : KeyEvent} (h1 : a.Lt b) (h2 : b.Lt c) : a.Lt c := by
  unfold Lt at *
  omega

theorem Lt.asymm {a b : KeyEvent} (h1 : a.Lt b) : ¬ b.Lt a := by
  unfold Lt at *
  omega

theorem eq_of_not_lt {a b : KeyEvent} (h1 : ¬ a.Lt b) (h2 : ¬ b.Lt a) : a = b := by
  unfold Lt at *
  have hr : a.code.rank = b.code.rank := by omega
  have hp : a.code.payload = b.code.payload := by omega
  have hm : a.modifiers = b.modifiers := by omega
  cases a; cases b
  simp_all
  exact KeyCode.eq_of_rank_payload hr hp

end KeyEvent

/-- Lexicographic order on key sequences (Rust `Ord for Vec<KeyEvent>`):
elementwise comparison, with a strict prefix sorting before its
extensions. -/
def SeqLt : List KeyEvent → List KeyEvent → Prop
  | _, [] => False
  | [], _ :: _ => True
  | a :: as, b :: bs => a.Lt b ∨ (a = b ∧ SeqLt as bs)

instance instSeqLtDecidable : (as bs : List KeyEvent) → Decidable (SeqLt as bs)
  | _, [] => isFalse (by simp [SeqLt])
  | [], _ :: _ => isTrue (by simp [SeqLt])
  | a :: as, b :: bs =>
      haveI : Decidable (SeqLt as bs) := instSeqLtDecidable as bs
      decidable_of_iff (a.Lt b ∨ (a = b ∧ SeqLt as bs)) (by simp [SeqLt])

/-- Rust `starts_with`: does the second sequence start with the first? -/
def seqIsPrefixOf : List KeyEvent → List KeyEvent → Bool
  | [], _ => true
  | _ :: _, [] => false
  | a :: as, b :: bs => decide (a = b) && seqIsPrefixOf as bs

theorem seqIsPrefixOf_iff : ∀ (p k : List KeyEvent),
    seqIsPrefixOf p k = true ↔ p <+: k
  | [], k => by simp [seqIsPrefixOf]
  | a :: as, [] => by simp [seqIsPrefixOf]
  | a :: as, b :: bs => by
      simp [seqIsPrefixOf, List.cons_prefix_cons, seqIsPrefixOf_iff as bs]

theorem seqLt_irrefl : ∀ (as : List KeyEvent), ¬ SeqLt as as
  | [] => by simp [SeqLt]
  | a :: as => by
      simp [SeqLt]
      exact ⟨KeyEvent.Lt.irrefl a, seqLt_irrefl as⟩

theorem seqLt_trans : ∀ (as bs cs : List KeyEvent),
    SeqLt as bs → SeqLt bs cs → SeqLt as cs
  | _, _, [], _, h2 => absurd h2 (by simp [SeqLt])
  | _, [], _ :: _, h1, _ => absurd h1 (by simp [SeqLt])
  | [], _ :: _, _ :: _, _, _ => by simp [SeqLt]
  | a :: as, b :: bs, c :: cs, h1, h2 => by
      simp only [SeqLt] at h1 h2 ⊢
      rcases h1 with h1 | ⟨rfl, h1⟩
      · rcases h2 with h2 | ⟨rfl, h2⟩
        · exact Or.inl (h1.trans h2)
        · exact Or.inl h1
      · rcases h2 with h2 | ⟨rfl, h2⟩
        · exact Or.inl h2
        · exact Or.inr ⟨rfl, seqLt_trans as bs cs h1 h2⟩

theorem seq_eq_of_not_lt : ∀ (as bs : List KeyEvent),
    ¬ SeqLt as bs → ¬ SeqLt bs as → as = bs
  | [], [], _, _ => rfl
  | [], _ :: _, h1, _ => absurd (by simp [SeqLt]) h1
  | _ :: _, [], _, h2 => absurd (by simp [SeqLt]) h2
  | a :: as, b :: bs, h1, h2 => by
      simp only [SeqLt, not_or, not_and] at h1 h2
      have hab : a = b := KeyEvent.eq_of_not_lt h1.1 h2.1
      have htl : as = bs := seq_eq_of_not_lt as bs (h1.2 hab) (h2.2 hab.symm)
      rw [hab, htl]

/-- A sequence never compares below one of its own prefixes. -/
theorem not_seqLt_of_isPrefix : ∀ (S k : List KeyEvent), S <+: k → ¬ SeqLt k S
  | [], k, _ => by simp [SeqLt]
  | s :: S, k, h => by
      obtain ⟨t, rfl⟩ := h
      simp only [List.cons_append, SeqLt, not_or, not_and]
      exact ⟨KeyEvent.Lt.irrefl s,
        fun _ => not_seqLt_of_isPrefix S (S ++ t) (List.prefix_append S t)⟩

/-- Interval property of the lexicographic order: anything lying
(weakly) between a sequence `S` and an extension of `S` itself starts
with `S`. This is what justifies the contiguous range scan of the
`BTreeMap`. -/
theorem isPrefix_of_between : ∀ (S x k : List KeyEvent),
    ¬ SeqLt x S → (x = k ∨ SeqLt x k) → S <+: k → S <+: x
  | [], x, k, _, _, _ => List.nil_prefix
  | s :: S, x, k, h1, h2, h3 => by
    obtain ⟨t, rfl⟩ := h3
    cases x with
    | nil => exact absurd (by simp [SeqLt]) h1
    | cons y x =>
      simp only [List.cons_append, SeqLt, not_or, not_and] at h1 h2
      rcases h2 with h2 | h2
      · cases h2
        exact (List.prefix_cons_inj s).mpr
          (isPrefix_of_between S (S ++ t) (S ++ t)
            (h1.2 rfl) (Or.inl rfl) (List.prefix_append S t))
      · rcases h2 with h2 | ⟨rfl, h2⟩
        · exact absurd h2 h1.1
        · exact (List.prefix_cons_inj y).mpr
            (isPrefix_of_between S x (S ++ t) (h1.2 rfl) (Or.inr h2)
              (List.prefix_append S t))

/-- Strictly ascending keys: the `BTreeMap` ordering invariant on the
underlying sorted association list. -/
def KeysSorted {A : Type} : List (List KeyEvent × A) → Prop
  | [] => True
  | [_] => True
  | p :: q :: rest => SeqLt p.1 q.1 ∧ KeysSorted (q :: rest)

instance instKeysSortedDecidable {A : Type} :
    (l : List (List KeyEvent × A)) → Decidable (KeysSorted l)
  | [] => isTrue True.intro
  | [_] => isTrue True.intro
  | p :: q :: rest =>
      haveI : Decidable (KeysSorted (q :: rest)) := instKeysSortedDecidable (q :: rest)
      decidable_of_iff (SeqLt p.1 q.1 ∧ KeysSorted (q :: rest)) (by simp [KeysSorted])

theorem keysSorted_tail {A : Type} {p : List KeyEvent × A}
    {l : List (List KeyEvent × A)} (h : KeysSorted (p :: l)) : KeysSorted l := by
  cases l with
  | nil => exact True.intro
  | cons q rest => exact h.2

theorem keysSorted_head_lt {A : Type} {p : List KeyEvent × A}
    {l : List (List KeyEvent × A)} (h : KeysSorted (p :: l)) :
    ∀ q ∈ l, SeqLt p.1 q.1 := by
  induction l generalizing p with
  | nil => simp
  | cons q rest ih =>
    intro r hr
    rcases List.mem_cons.mp hr with rfl | hr
    · exact h.1
    · exact seqLt_trans _ _ _ h.1 (ih h.2 r hr)

/-- Rust `Keymap<A>`: the `BTreeMap` is modelled by its strictly sorted
association list; `timeout` is the duration in milliseconds. -/
structure Keymap (A : Type) where
  keys : List (List KeyEvent × A)
  timeout : Nat
  sorted : KeysSorted keys

/-- `Keymap::entries_with_prefix` on the underlying list:
`range((Included(prefix), Unbounded))` on a sorted map is
`dropWhile (· < prefix)`, followed by the source's
`take_while(starts_with prefix)`. -/
def entriesWithPrefixL {A : Type} (keys : List (List KeyEvent × A))
    (prefx : List KeyEvent) : List (List KeyEvent × A) :=
  (keys.dropWhile fun p => decide (SeqLt p.1 prefx)).takeWhile
    fun p => seqIsPrefixOf prefx p.1

/-- `Keymap::get` on the underlying list: inspect the first entry of the
prefix range; `Some(Some _)` on an exact match, `Some(None)` on a strict
prefix, `None` when the range is empty. -/
def getL {A : Type} (keys : List (List KeyEvent × A)) (ks : List KeyEvent) :
    Option (Option A) :=
  (entriesWithPrefixL keys ks).head?.map fun p => if p.1 = ks then some p.2 else none

def Keymap.entriesWithPrefix {A : Type} (km : Keymap A)
    (prefx : List KeyEvent) : List (List KeyEvent × A) :=
  entriesWithPrefixL km.keys prefx

/-- `Keymap::get`. -/
def Keymap.get {A : Type} (km : Keymap A) (ks : List KeyEvent) : Option (Option A) :=
  getL km.keys ks

theorem entriesWithPrefixL_subset {A : Type} (keys : List (List KeyEvent × A))
    (S : List KeyEvent) : ∀ p ∈ entriesWithPrefixL keys S, p ∈ keys := by
  intro p hp
  exact (List.dropWhile_sublist _).subset ((List.takeWhile_sublist _).subset hp)

theorem getL_of_mem {A : Type} : ∀ (keys : List (List KeyEvent × A))
    (S : List KeyEvent) (a : A), KeysSorted keys → (S, a) ∈ keys →
    getL keys S = some (some a)
  | p :: rest, S, a, hs, hmem => by
    rcases List.mem_cons.mp hmem with rfl | hmem
    · simp [getL, entriesWithPrefixL, List.dropWhile_cons, seqLt_irrefl,
        List.takeWhile_cons, (seqIsPrefixOf_iff S S).mpr (List.prefix_refl S)]
    · have hlt : SeqLt p.1 S := keysSorted_head_lt hs (S, a) hmem
      have : getL (p :: rest) S = getL rest S := by
        simp [getL, entriesWithPrefixL, List.dropWhile_cons, hlt]
      rw [this]
      exact getL_of_mem rest S a (keysSorted_tail hs) hmem

theorem mem_of_getL_some_some {A : Type} (keys : List (List KeyEvent × A))
    (S : List KeyEvent) (a : A) (h : getL keys S = some (some a)) :
    (S, a) ∈ keys := by
  unfold getL at h
  cases hh : (entriesWithPrefixL keys S).head? with
  | none => rw [hh] at h; simp at h
  | some p =>
    rw [hh] at h
    have hp : p ∈ entriesWithPrefixL keys S := by
      cases hl : entriesWithPrefixL keys S with
      | nil => rw [hl] at hh; simp at hh
      | cons q t =>
        rw [hl] at hh
        simp at hh
        rw [hh]
        exact List.mem_cons_self p t
    have hmem := entriesWithPrefixL_subset keys S p hp
    by_cases hq : p.1 = S
    · have hval : p.2 = a := by
        simp [hq] at h
        exact h
      have hpa : p = (S, a) := Prod.ext hq hval
      rw [hpa] at hmem
      exact hmem
    · simp [hq] at h

theorem getL_prefix_case {A : Type} : ∀ (keys : List (List KeyEvent × A))
    (S : List KeyEvent), KeysSorted keys → (∀ b, (S, b) ∉ keys) →
    ∀ (k : List KeyEvent) (v : A), (k, v) ∈ keys → S <+: k →
    getL keys S = some none
  | p :: rest, S, hs, hno, k, v, hmem, hpre => by
    by_cases hlt : SeqLt p.1 S
    · have hne : p ≠ (k, v) := by
        intro he
        rw [he] at hlt
        exact not_seqLt_of_isPrefix S k hpre hlt
      have hmem2 : (k, v) ∈ rest := by
        rcases List.mem_cons.mp hmem with h | h
        · exact absurd h.symm hne
        · exact h
      have hstep : getL (p :: rest) S = getL rest S := by
        simp [getL, entriesWithPrefixL, List.dropWhile_cons, hlt]
      rw [hstep]
      exact getL_prefix_case rest S (keysSorted_tail hs)
        (fun b hb => hno b (List.mem_cons_of_mem p hb)) k v hmem2 hpre
    · have h2 : p.1 = k ∨ SeqLt p.1 k := by
        rcases List.mem_cons.mp hmem with h | h
        · exact Or.inl (congrArg Prod.fst h.symm)
        · exact Or.inr (keysSorted_head_lt hs (k, v) h)
      have hpfx : S <+: p.1 := isPrefix_of_between S p.1 k hlt h2 hpre
      have hne : p.1 ≠ S := by
        intro he
        exact hno p.2 (by rw [← he]; exact List.mem_cons_self p rest)
      simp [getL, entriesWithPrefixL, List.dropWhile_cons, hlt,
        List.takeWhile_cons, (seqIsPrefixOf_iff S p.1).mpr hpfx, hne]

theorem getL_none_iff {A : Type} (keys : List (List KeyEvent × A))
    (S : List KeyEvent) (hs : KeysSorted keys) :
    getL keys S = none ↔ ∀ p ∈ keys, ¬ S <+: p.1 := by
  constructor
  · intro h p hp hpre
    by_cases hex : ∃ b, (S, b) ∈ keys
    · obtain ⟨b, hb⟩ := hex
      rw [getL_of_mem keys S b hs hb] at h
      exact Option.noConfusion h
    · push_neg at hex
      rw [getL_prefix_case keys S hs hex p.1 p.2 hp hpre] at h
      exact Option.noConfusion h
  · intro h
    unfold getL
    cases hd : keys.dropWhile fun p => decide (SeqLt p.1 S) with
    | nil => simp [entriesWithPrefixL, hd]
    | cons q t =>
      have hq : q ∈ keys := (List.dropWhile_sublist _).subset (by rw [hd]; exact List.mem_cons_self q t)
      have : seqIsPrefixOf S q.1 = false := by
        rcases hb : seqIsPrefixOf S q.1 with _ | _
        · rfl
        · exact absurd ((seqIsPrefixOf_iff S q.1).mp hb) (h q hq)
      simp [entriesWithPrefixL, hd, List.takeWhile_cons, this]

/-- State of `KeymapHandler`: the rolling buffer plus the number of
leading events already consumed and pending removal (`buffer_skip`).
The mpsc receiver is externalised into `NextInput`. -/
structure HandlerState where
  buffer : List KeyEvent
  bufferSkip : Nat
deriving DecidableEq

/-- The three ways the await in `KeymapHandler::next` can resolve: a new
key event (`Ok(Some(event))`), channel closure (`Ok(None)`), or the
timeout elapsing (`Err(_timeout)`). A timeout can only occur in a real
execution when the drained buffer is non-empty (otherwise `recv` is
awaited without a timeout). -/
inductive NextInput where
  | key (event : KeyEvent)
  | timeout
  | closed
deriving DecidableEq

/-- The skip search of `KeymapHandler::next`:
`(0..buffer.len()).find_map(|i| keymap.get(&buffer[i..]).map(|action| (i, action)))
  .unwrap_or((buffer.len(), None))`. -/
def resolveSkip {A : Type} (km : Keymap A) (buffer : List KeyEvent) :
    Nat × Option A :=
  ((List.range buffer.length).findSome? fun i =>
    (km.get (buffer.drop i)).map fun action => (i, action)).getD
    (buffer.length, none)

namespace KeymapHandler

/-- One step of `KeymapHandler::next`, given the active keymap and how
the await resolved. First the previously consumed prefix is drained,
then the event is handled. Returns the successor state and the returned
value (`none` = end of stream, mirroring the `Option` return). -/
def next {A : Type} (km : Keymap A) (st : HandlerState) (inp : NextInput) :
    HandlerState × Option (List KeyEvent × Option A) :=
  let buffer := st.buffer.drop st.bufferSkip
  match inp with
  | .key event =>
      let buffer2 := buffer ++ [event]
      let r := resolveSkip km buffer2
      (⟨buffer2, if r.2.isSome then buffer2.length else r.1⟩,
        some (buffer2.take r.1, r.2))
  | .closed => (⟨buffer, 0⟩, none)
  | .timeout => (⟨buffer, buffer.length⟩, some (buffer, none))

end KeymapHandler

/-- The first hit of `find_map` over `0..n` is at the least index whose
image is not `none`. -/
theorem findSome?_range_min {B : Type} (f : Nat → Option B) : ∀ (n : Nat),
    ((List.range n).findSome? f = none ∧ ∀ j, j < n → f j = none) ∨
    (∃ i b, (List.range n).findSome? f = some b ∧ i < n ∧ f i = some b ∧
      ∀ j, j < i → f j = none)
  | 0 => Or.inl ⟨rfl, fun j hj => absurd hj (Nat.not_lt_zero j)⟩
  | n + 1 => by
    rcases findSome?_range_min f n with ⟨hnone, hall⟩ | ⟨i, b, hfs, hin, hfi, hmin⟩
    · rw [List.range_succ, List.findSome?_append, hnone]
      cases hf : f n with
      | none =>
        refine Or.inl ⟨by simp [hf], fun j hj => ?_⟩
        rcases Nat.lt_succ_iff_lt_or_eq.mp hj with hj | rfl
        · exact hall j hj
        · exact hf
      | some b =>
        exact Or.inr ⟨n, b, by simp [hf], Nat.lt_succ_self n, hf, hall⟩
    · refine Or.inr ⟨i, b, ?_, Nat.lt_succ_of_lt hin, hfi, hmin⟩
      rw [List.range_succ, List.findSome?_append, hfs]
      rfl

/-- Characterisation of the skip search: it returns the least skip
count whose suffix classifies as a match or prefix, together with that
classification, falling back to `(len, None)` when every suffix is
unmatched. -/
theorem resolveSkip_spec {A : Type} (km : Keymap A) (buffer : List KeyEvent) :
    (resolveSkip km buffer).1 ≤ buffer.length ∧
    (∀ j, j < (resolveSkip km buffer).1 → km.get (buffer.drop j) = none) ∧
    ((resolveSkip km buffer).1 < buffer.length →
      km.get (buffer.drop (resolveSkip km buffer).1) =
        some (resolveSkip km buffer).2) ∧
    ((resolveSkip km buffer).1 = buffer.length →
      (resolveSkip km buffer).2 = none) := by
  rcases findSome?_range_min
      (fun i => (km.get (buffer.drop i)).map fun action => (i, action))
      buffer.length with ⟨hnone, hall⟩ | ⟨i, b, hfs, hin, hfi, hmin⟩
  · have hr : resolveSkip km buffer = (buffer.length, none) := by
      simp [resolveSkip, hnone]
    rw [hr]
    refine ⟨Nat.le_refl _, fun j hj => ?_, fun h => absurd h (Nat.lt_irrefl _),
      fun _ => rfl⟩
    have := hall j hj
    exact Option.map_eq_none.mp this
  · obtain ⟨act, hget, hb⟩ : ∃ act, km.get (buffer.drop i) = some act ∧
        b = (i, act) := by
      cases hg : km.get (buffer.drop i) with
      | none => rw [hg] at hfi; simp at hfi
      | some act =>
        rw [hg] at hfi
        simp at hfi
        exact ⟨act, rfl, hfi.symm⟩
    have hr : resolveSkip km buffer = (i, act) := by
      simp [resolveSkip, hfs, hb]
    rw [hr]
    refine ⟨Nat.le_of_lt hin, fun j hj => ?_, fun _ => hget,
      fun h => absurd h (Nat.ne_of_lt hin)⟩
    exact Option.map_eq_none.mp (hmin j hj)

/-- The pending part of the buffer: the events not yet scheduled for
removal, i.e. what the following call will keep after draining. -/
def HandlerState.pending (st : HandlerState) : List KeyEvent :=
  st.buffer.drop st.bufferSkip

/-- Length of the longest bound key sequence. -/
def maxBindingLen {A : Type} (km : Keymap A) : Nat :=
  (km.keys.map fun p => p.1.length).foldr max 0

theorem le_foldr_max : ∀ (l : List Nat) (x : Nat), x ∈ l → x ≤ l.foldr max 0
  | a :: t, x, h => by
    rcases List.mem_cons.mp h with rfl | h
    · exact Nat.le_max_left _ _
    · exact Nat.le_trans (le_foldr_max t x h) (Nat.le_max_right _ _)

theorem length_le_maxBindingLen {A : Type} (km : Keymap A)
    (p : List KeyEvent × A) (h : p ∈ km.keys) :
    p.1.length ≤ maxBindingLen km :=
  le_foldr_max _ _ (List.mem_map_of_mem (fun q => q.1.length) h)

/-- If the whole buffer already classifies (match or prefix), the skip
search stops immediately at skip count zero. -/
theorem resolveSkip_of_get {A : Type} (km : Keymap A) (buffer : List KeyEvent)
    (hne : buffer ≠ []) (x : Option A) (hget : km.get buffer = some x) :
    resolveSkip km buffer = (0, x) := by
  obtain ⟨hle, hmin, hhit, hfall⟩ := resolveSkip_spec km buffer
  have h0 : (resolveSkip km buffer).1 = 0 := by
    by_contra hne0
    have : km.get (buffer.drop 0) = none := hmin 0 (Nat.pos_of_ne_zero hne0)
    rw [List.drop_zero, hget] at this
    exact Option.noConfusion this
  have hlen : 0 < buffer.length := List.length_pos.mpr hne
  have := hhit (by rw [h0]; exact hlen)
  rw [h0, List.drop_zero, hget] at this
  have h2 : (resolveSkip km buffer).2 = x := by
    injection this with h3
    exact h3.symm
  exact Prod.ext h0 h2

namespace KeymapHandler

/-- Feed a list of key events one at a time, collecting the returned
slice and action of each call (a key event never yields end of
stream, so the impossible branch just recurses). -/
def runKeys {A : Type} (km : Keymap A) (st : HandlerState) :
    List KeyEvent → HandlerState × List (List KeyEvent × Option A)
  | [] => (st, [])
  | e :: rest =>
    match next km st (.key e) with
    | (st1, some out) =>
        let r := runKeys km st1 rest
        (r.1, out :: r.2)
    | (st1, none) => runKeys km st1 rest

/-- The key events one step surfaces to the caller: the passthrough
slice plus, when an action fired, the key sequence the action consumed
(the buffer suffix behind the skipped prefix). -/
def stepFlow {A : Type} (km : Keymap A) (st : HandlerState)
    (inp : NextInput) : List KeyEvent :=
  match next km st inp with
  | (_, none) => []
  | (st1, some (pt, act)) =>
      pt ++ (if act.isSome then st1.buffer.drop pt.length else [])

/-- Run a pattern of awaited inputs, collecting each step's surfaced
events. -/
def runFlow {A : Type} (km : Keymap A) (st : HandlerState) :
    List NextInput → HandlerState × List (List KeyEvent)
  | [] => (st, [])
  | inp :: rest =>
      let st1 := (next km st inp).1
      let r := runFlow km st1 rest
      (r.1, stepFlow km st inp :: r.2)

end KeymapHandler

/-- The key events delivered by a pattern of inputs, in order. -/
def keysOf : List NextInput → List KeyEvent
  | [] => []
  | .key e :: rest => e :: keysOf rest
  | .timeout :: rest => keysOf rest
  | .closed :: rest => keysOf rest

theorem keysOf_cons (inp : NextInput) (rest : List NextInput) :
    keysOf (inp :: rest) = keysOf [inp] ++ keysOf rest := by
  cases inp <;> simp [keysOf]

/-- Single-step conservation: the surfaced events plus the remaining
pending buffer account exactly for the pending buffer before the step
plus the newly delivered event. -/
theorem stepFlow_pending {A : Type} (km : Keymap A) (st : HandlerState)
    (inp : NextInput) :
    KeymapHandler.stepFlow km st inp ++
      ((KeymapHandler.next km st inp).1).pending =
    st.pending ++ keysOf [inp] := by
  cases inp with
  | closed =>
    simp [KeymapHandler.stepFlow, KeymapHandler.next, HandlerState.pending,
      keysOf]
  | timeout =>
    simp only [KeymapHandler.stepFlow, KeymapHandler.next,
      HandlerState.pending, keysOf]
    simp
    omega
  | key e =>
    have hle : (resolveSkip km (st.buffer.drop st.bufferSkip ++ [e])).1 ≤
        (st.buffer.drop st.bufferSkip ++ [e]).length :=
      (resolveSkip_spec km _).1
    simp only [KeymapHandler.stepFlow, KeymapHandler.next,
      HandlerState.pending, keysOf]
    cases hr : (resolveSkip km (st.buffer.drop st.bufferSkip ++ [e])).2 with
    | none =>
      simp only [Option.isSome_none, Bool.false_eq_true, if_false,
        List.append_nil]
      rw [List.take_append_drop]
    | some a =>
      simp only [Option.isSome_some, if_true, List.drop_length,
        List.append_nil, List.length_take]
      rw [Nat.min_eq_left hle, List.take_append_drop]

/-- Run-level conservation: surfaced events plus the final pending
buffer reproduce the initial pending buffer followed by all delivered
key events, in order. -/
theorem runFlow_conservation {A : Type} (km : Keymap A) :
    ∀ (inputs : List NextInput) (st : HandlerState),
    (KeymapHandler.runFlow km st inputs).2.flatten ++
      ((KeymapHandler.runFlow km st inputs).1).pending =
    st.pending ++ keysOf inputs
  | [], st => by simp [KeymapHandler.runFlow, keysOf]
  | inp :: rest, st => by
    have h1 := stepFlow_pending km st inp
    have h2 := runFlow_conservation km rest (KeymapHandler.next km st inp).1
    simp only [KeymapHandler.runFlow, List.flatten_cons]
    rw [List.append_assoc, h2, ← List.append_assoc, h1, List.append_assoc,
      ← keysOf_cons]

/-- No bound key sequence is a strict prefix of another bound key
sequence: a bound sequence that starts another bound sequence equals
it. -/
def NoOverlap {A : Type} (km : Keymap A) : Prop :=
  ∀ p ∈ km.keys, ∀ q ∈ km.keys, seqIsPrefixOf p.1 q.1 = true → p.1 = q.1

theorem runKeys_cons {A : Type} (km : Keymap A) (st : HandlerState)
    (e : KeyEvent) (rest : List KeyEvent) :
    KeymapHandler.runKeys km st (e :: rest) =
    (match KeymapHandler.next km st (.key e) with
     | (st1, some out) =>
        ((KeymapHandler.runKeys km st1 rest).1,
          out :: (KeymapHandler.runKeys km st1 rest).2)
     | (st1, none) => KeymapHandler.runKeys km st1 rest) := rfl

/-- When the drained-buffer-plus-new-event already classifies as a
match or prefix, the step returns an empty slice with that
classification and skips nothing (or everything on a match). -/
theorem next_key_of_get {A : Type} (km : Keymap A) (st : HandlerState)
    (e : KeyEvent) (x : Option A)
    (hget : km.get (st.buffer.drop st.bufferSkip ++ [e]) = some x) :
    KeymapHandler.next km st (.key e) =
    (⟨st.buffer.drop st.bufferSkip ++ [e],
      if x.isSome then (st.buffer.drop st.bufferSkip ++ [e]).length else 0⟩,
      some ([], x)) := by
  have hres := resolveSkip_of_get km _ (by simp) x hget
  simp [KeymapHandler.next, hres]

/-- Feeding a bound sequence event by event, when no other binding is a
proper prefix of it: each intermediate step returns an empty slice and
no action, and the final step returns an empty slice with the bound
action. -/
theorem runKeys_feeds_binding {A : Type} (km : Keymap A) (K : List KeyEvent)
    (a : A) (hmem : (K, a) ∈ km.keys)
    (hpref : ∀ p ∈ km.keys, p.1 ≠ K → ¬ (p.1 <+: K)) :
    ∀ (suf pre : List KeyEvent), K = pre ++ suf → suf ≠ [] →
    KeymapHandler.runKeys km ⟨pre, 0⟩ suf =
      (⟨K, K.length⟩,
        List.replicate (suf.length - 1) ([], none) ++ [([], some a)])
  | [], _, _, hne => absurd rfl hne
  | e :: rest, pre, hK, _ => by
    cases rest with
    | nil =>
      have hbuf : (⟨pre, 0⟩ : HandlerState).buffer.drop
          (⟨pre, 0⟩ : HandlerState).bufferSkip ++ [e] = K := by
        simp [hK]
      have hget : km.get ((⟨pre, 0⟩ : HandlerState).buffer.drop
          (⟨pre, 0⟩ : HandlerState).bufferSkip ++ [e]) = some (some a) := by
        rw [hbuf]
        exact getL_of_mem km.keys K a km.sorted hmem
      have hstep := next_key_of_get km ⟨pre, 0⟩ e (some a) hget
      rw [hbuf] at hstep
      simp only [KeymapHandler.runKeys, hstep]
      simp
    | cons f rest2 =>
      have hKsplit : K = (pre ++ [e]) ++ (f :: rest2) := by
        rw [hK]
        simp
      have hno : ∀ b, (pre ++ [e], b) ∉ km.keys := by
        intro b hb
        refine hpref (pre ++ [e], b) hb ?_ ⟨f :: rest2, hKsplit.symm⟩
        intro he
        have he2 : pre ++ [e] = K := he
        have : (pre ++ [e]).length = K.length := by rw [he2]
        rw [hKsplit] at this
        simp at this
      have hget : km.get ((⟨pre, 0⟩ : HandlerState).buffer.drop
          (⟨pre, 0⟩ : HandlerState).bufferSkip ++ [e]) = some none := by
        simp only [List.drop_zero]
        exact getL_prefix_case km.keys (pre ++ [e]) km.sorted hno K a hmem
          ⟨f :: rest2, hKsplit.symm⟩
      have hstep := next_key_of_get km ⟨pre, 0⟩ e none hget
      have hrec := runKeys_feeds_binding km K a hmem hpref (f :: rest2)
        (pre ++ [e]) hKsplit (by simp)
      rw [runKeys_cons, hstep]
      show ((KeymapHandler.runKeys km ⟨pre ++ [e], 0⟩ (f :: rest2)).1,
          ([], (none : Option A)) ::
            (KeymapHandler.runKeys km ⟨pre ++ [e], 0⟩ (f :: rest2)).2) = _
      rw [hrec]
      simp [List.replicate_succ]

/-! The nom combinators used by `parse_key` / `parse_key_sequence`,
modelled over `List Char` with `Option` results (this grammar uses no
`cut`, so every nom failure is a recoverable error). -/

/-- A nom-style complete parser: input to remaining input and value. -/
abbrev P (α : Type) : Type := List Char → Option (List Char × α)

namespace P

/-- `nom::bytes::complete::tag`. -/
def ptag (s : List Char) : P (List Char) := fun input =>
  if input.take s.length = s then some (input.drop s.length, s) else none

/-- `nom::character::complete::satisfy`. -/
def satisfy (pred : Char → Bool) : P Char := fun input =>
  match input with
  | [] => none
  | c :: rest => if pred c then some (rest, c) else none

/-- `nom::character::complete::one_of`. -/
def oneOf (s : List Char) : P Char := satisfy fun c => s.contains c

/-- `nom::combinator::map`. -/
def pmap {α β : Type} (p : P α) (f : α → β) : P β := fun input =>
  (p input).map fun r => (r.1, f r.2)

/-- `nom::combinator::value`. -/
def pvalue {α β : Type} (v : β) (p : P α) : P β := pmap p fun _ => v

/-- `nom::branch::alt`: first branch to succeed wins. -/
def palt {α : Type} (ps : List (P α)) : P α := fun input =>
  ps.foldr (fun p acc => (p input).orElse fun _ => acc) none

/-- `nom::sequence::separated_pair`. -/
def separatedPair {α β γ : Type} (p : P α) (sep : P β) (q : P γ) :
    P (α × γ) := fun input =>
  match p input with
  | none => none
  | some (i1, a) =>
    match sep i1 with
    | none => none
    | some (i2, _) =>
      match q i2 with
      | none => none
      | some (i3, c) => some (i3, (a, c))

/-- `nom::sequence::delimited`. -/
def delimited {α β γ : Type} (l : P α) (m : P β) (r : P γ) : P β := fun input =>
  match l input with
  | none => none
  | some (i1, _) =>
    match m i1 with
    | none => none
    | some (i2, b) =>
      match r i2 with
      | none => none
      | some (i3, _) => some (i3, b)

/-- Iteration of `fold_many1` after its first hit, with fuel bounded by
the input length; a success that consumes nothing aborts, as in nom. -/
def foldManyGo {α β : Type} (p : P α) (f : β → α → β) : Nat → β → P β
  | 0, acc => fun input => some (input, acc)
  | fuel + 1, acc => fun input =>
    match p input with
    | none => some (input, acc)
    | some (rest, a) =>
      if rest.length < input.length then foldManyGo p f fuel (f acc a) rest
      else none

/-- `nom::multi::fold_many1`. -/
def foldMany1 {α β : Type} (p : P α) (init : β) (f : β → α → β) : P β :=
  fun input =>
  match p input with
  | none => none
  | some (rest, a) =>
    if rest.length < input.length then
      foldManyGo p f rest.length (f init a) rest
    else none

/-- Iteration of `many1` after its first hit, fuel-bounded likewise. -/
def many1Go {α : Type} (p : P α) : Nat → P (List α)
  | 0 => fun input => some (input, [])
  | fuel + 1 => fun input =>
    match p input with
    | none => some (input, [])
    | some (rest, a) =>
      if rest.length < input.length then
        (many1Go p fuel rest).map fun r => (r.1, a :: r.2)
      else none

/-- `nom::multi::many1`. -/
def many1 {α : Type} (p : P α) : P (List α) := fun input =>
  match p input with
  | none => none
  | some (rest, a) =>
    if rest.length < input.length then
      (many1Go p rest.length rest).map fun r => (r.1, a :: r.2)
    else none

/-- `nom::character::complete::u8`: a run of ascii digits valued as a
`u8`, erring on overflow. -/
def parseU8 : P Nat := fun input =>
  let digits := input.takeWhile fun c => c.isDigit
  if digits = [] then none
  else
    let n := digits.foldl (fun acc c => 10 * acc + (c.toNat - 48)) 0
    if n ≤ 255 then some (input.drop digits.length, n) else none

end P

/-- `KeyCode::parse_char`: a single alphanumeric character. The source
uses `nom_unicode::is_alphanumeric`; over the ASCII inputs of this
grammar it agrees with `Char.isAlphanum`, which stands in for it. -/
def KeyCode.parse_char : P KeyCode :=
  P.pmap (P.satisfy fun c => c.isAlphanum) KeyCode.Char

/-- `KeyCode::parse_special`: the named special keys, then a bare
number as a function key, tried in source order. -/
def KeyCode.parse_special : P KeyCode :=
  P.palt [
    P.pvalue KeyCode.Backspace (P.ptag ['B', 'S']),
    P.pvalue KeyCode.Delete (P.ptag ['D', 'e', 'l']),
    P.pvalue KeyCode.Enter (P.ptag ['C', 'R']),
    P.pvalue KeyCode.Left (P.ptag ['L', 'e', 'f', 't']),
    P.pvalue KeyCode.Right (P.ptag ['R', 'i', 'g', 'h', 't']),
    P.pvalue KeyCode.Up (P.ptag ['U', 'p']),
    P.pvalue KeyCode.Down (P.ptag ['D', 'o', 'w', 'n']),
    P.pvalue KeyCode.Home (P.ptag ['H', 'o', 'm', 'e']),
    P.pvalue KeyCode.End (P.ptag ['E', 'n', 'd']),
    P.pvalue KeyCode.PageUp (P.ptag ['P', 'a', 'g', 'e', 'U', 'p']),
    P.pvalue KeyCode.PageDown (P.ptag ['P', 'a', 'g', 'e', 'D', 'o', 'w', 'n']),
    P.pvalue KeyCode.Tab (P.ptag ['T', 'a', 'b']),
    P.pvalue KeyCode.Insert (P.ptag ['I', 'n', 's']),
    P.pvalue KeyCode.Escape (P.ptag ['E', 's', 'c']),
    P.pmap P.parseU8 KeyCode.F]

/-- Modifier letter to crossterm bit mask: `A`lt = 4, `C`ontrol = 2,
`M`eta = 32, `S`hift = 1. -/
def modifierBit (c : Char) : Nat :=
  if c = 'A' then 4 else if c = 'C' then 2 else if c = 'M' then 32 else 1

/-- `parse_key`: a plain alphanumeric character, or a bracketed form
built from an optional modifier run, a `-` separator and a key, where
the key tries `parse_char` before `parse_special` (exactly as in the
source). -/
def parse_key : P KeyEvent :=
  let key := P.palt [KeyCode.parse_char, KeyCode.parse_special]
  let modifiers :=
    P.foldMany1 (P.pmap (P.oneOf ['A', 'C', 'M', 'S']) modifierBit) 0 Nat.lor
  let bracketed := P.palt [
    P.pmap (P.separatedPair modifiers (P.ptag ['-']) key)
      (fun pr => KeyEvent.mk pr.2 pr.1),
    P.pmap KeyCode.parse_special (fun c => KeyEvent.mk c 0)]
  P.palt [
    P.delimited (P.ptag ['<']) bracketed (P.ptag ['>']),
    P.pmap KeyCode.parse_char (fun c => KeyEvent.mk c 0)]

/-- `parse_key_sequence`: `many1(parse_key)`, the remaining input
discarded (`.map(|(_, k)| k)`); `none` models the parse error. -/
def parse_key_sequence (input : List Char) : Option (List KeyEvent) :=
  (P.many1 parse_key input).map fun r => r.2

instance instNoOverlapDecidable {A : Type} (km : Keymap A) :
    Decidable (NoOverlap km) :=
  inferInstanceAs (Decidable (∀ p ∈ km.keys, ∀ q ∈ km.keys,
    seqIsPrefixOf p.1 q.1 = true → p.1 = q.1))

theorem exists_prefix_of_getL_some_none {A : Type}
    (keys : List (List KeyEvent × A)) (S : List KeyEvent)
    (hs : KeysSorted keys) (h : getL keys S = some none) :
    ∃ p ∈ keys, S <+: p.1 := by
  by_contra hno
  push_neg at hno
  rw [(getL_none_iff keys S hs).mpr hno] at h
  exact Option.noConfusion h

theorem isPrefix_dropLast {l m : List KeyEvent} (h : l <+: m) :
    l.dropLast <+: m := by
  have h2 : l.dropLast <+: l := by
    rw [List.dropLast_eq_take]
    exact List.take_prefix _ _
  exact h2.trans h

/-! Concrete key events and keymaps used by the witnesses and
counterexamples. `kmGJ` binds "gg" and "j" (non-overlapping), `kmOv`
binds "g" and "gg" (one a strict prefix of the other), `kmDJ` binds
"dd" and "j" (the spec's own 'd'-then-'j' scenario). -/

def gE : KeyEvent := ⟨KeyCode.Char 'g', 0⟩
def jE : KeyEvent := ⟨KeyCode.Char 'j', 0⟩
def dE : KeyEvent := ⟨KeyCode.Char 'd', 0⟩

def kmGJ : Keymap Nat := ⟨[([gE, gE], 0), ([jE], 1)], 500, by decide⟩
def kmOv : Keymap Nat := ⟨[([gE], 0), ([gE, gE], 1)], 500, by decide⟩
def kmDJ : Keymap Nat := ⟨[([dE, dE], 0), ([jE], 1)], 500, by decide⟩

/-- C1: for every keymap and drained buffer to which a new key event
has just been appended, `next` computes the smallest skip count `i`
with `buffer[i..]` classified as match or prefix (every `j < i` is
`NoMatch`); it returns `buffer[0..i]` as the slice together with the
classification's action; on a match (`Some a`) the whole buffer is
scheduled for removal, on a prefix only `buffer[0..i]` is, and when
every suffix is unmatched the skip count falls back to the full length
(entire buffer returned, no action, entire buffer scheduled). -/
theorem claim_C1_next_skip_search {A : Type} (km : Keymap A)
    (st : HandlerState) (e : KeyEvent) :
    KeymapHandler.next km st (.key e) =
      (⟨st.pending ++ [e],
        if (resolveSkip km (st.pending ++ [e])).2.isSome
        then (st.pending ++ [e]).length
        else (resolveSkip km (st.pending ++ [e])).1⟩,
        some ((st.pending ++ [e]).take (resolveSkip km (st.pending ++ [e])).1,
          (resolveSkip km (st.pending ++ [e])).2)) ∧
    (∀ j, j < (resolveSkip km (st.pending ++ [e])).1 →
      km.get ((st.pending ++ [e]).drop j) = none) ∧
    ((resolveSkip km (st.pending ++ [e])).1 < (st.pending ++ [e]).length →
      km.get ((st.pending ++ [e]).drop
        (resolveSkip km (st.pending ++ [e])).1) =
        some (resolveSkip km (st.pending ++ [e])).2) ∧
    ((resolveSkip km (st.pending ++ [e])).1 = (st.pending ++ [e]).length →
      (resolveSkip km (st.pending ++ [e])).2 = none) := by
  obtain ⟨hle, hmin, hhit, hfall⟩ := resolveSkip_spec km (st.pending ++ [e])
  exact ⟨rfl, hmin, hhit, hfall⟩

theorem claim_C1_witness :
    KeymapHandler.next kmDJ ⟨[dE], 0⟩ (.key jE) =
      (⟨[dE, jE], 2⟩, some ([dE], some 1)) ∧
    kmDJ.get [dE, jE] = none ∧
    kmDJ.get [jE] = some (some 1) := by
  have h := claim_C1_next_skip_search kmDJ ⟨[dE], 0⟩ jE
  exact ⟨h.1, h.2.1 0 (by decide), h.2.2.1 (by decide)⟩

/-- C2: `Keymap::get` classifies a candidate sequence `S` exactly as
the reference definition: `Some (Some a)` iff `(S, a)` is a binding;
`Some None` iff no binding equals `S` but some binding's key starts
with `S`; `None` iff no binding's key starts with `S` (an exact match
being in particular a binding starting with `S`, this third case is
exactly "neither of the other two"). -/
theorem claim_C2_get_classification {A : Type} (km : Keymap A)
    (S : List KeyEvent) :
    (∀ a : A, (km.get S = some (some a) ↔ (S, a) ∈ km.keys)) ∧
    (km.get S = some none ↔
      ((∀ b : A, (S, b) ∉ km.keys) ∧ ∃ p ∈ km.keys, S <+: p.1)) ∧
    (km.get S = none ↔ ∀ p ∈ km.keys, ¬ S <+: p.1) := by
  refine ⟨fun a => ⟨fun h => mem_of_getL_some_some km.keys S a h,
    fun h => getL_of_mem km.keys S a km.sorted h⟩, ⟨?_, ?_⟩, ?_⟩
  · intro h
    constructor
    · intro b hb
      rw [show km.get S = getL km.keys S from rfl,
        getL_of_mem km.keys S b km.sorted hb] at h
      simp at h
    · exact exists_prefix_of_getL_some_none km.keys S km.sorted h
  · rintro ⟨hno, p, hp, hpre⟩
    exact getL_prefix_case km.keys S km.sorted hno p.1 p.2 hp hpre
  · exact getL_none_iff km.keys S km.sorted

/-- C3: in a keymap where no bound sequence is a strict prefix of
another, feeding any bound sequence one event at a time makes `next`
report an empty slice and no action on each of the first `len - 1`
steps, and an empty slice with exactly the bound action on the step
consuming the final event. -/
theorem claim_C3_nonoverlap_exact_feed {A : Type} (km : Keymap A)
    (K : List KeyEvent) (a : A) (hno : NoOverlap km)
    (hmem : (K, a) ∈ km.keys) (hne : K ≠ []) :
    KeymapHandler.runKeys km ⟨[], 0⟩ K =
      (⟨K, K.length⟩,
        List.replicate (K.length - 1) ([], none) ++ [([], some a)]) := by
  have hpref : ∀ p ∈ km.keys, p.1 ≠ K → ¬ (p.1 <+: K) := by
    intro p hp hpne hpre
    exact hpne (hno p hp (K, a) hmem ((seqIsPrefixOf_iff _ _).mpr hpre))
  exact runKeys_feeds_binding km K a hmem hpref K [] rfl hne

theorem claim_C3_witness :
    KeymapHandler.runKeys kmGJ ⟨[], 0⟩ [gE, gE] =
      (⟨[gE, gE], 2⟩, [([], none), ([], some 0)]) := by
  have h := claim_C3_nonoverlap_exact_feed kmGJ [gE, gE] 0 (by decide)
    (by decide) (by decide)
  exact h

/-- C4 counterexample: in the keymap binding both `K = [g]` and
`K2 = [g, g]` (K a strict prefix of K2, witnessed by the membership,
inequality and prefix facts below), feeding K alone makes the step
consuming K's final event return K's action with an empty slice — not
"passthrough of K's events and no action" after a timeout — and the
buffer is left fully consumed, so no timeout flush of K can follow;
feeding K2 in full returns K's action twice and never K2's action,
refuting both halves of the claim. -/
theorem claim_C4_counterexample :
    ([gE], 0) ∈ kmOv.keys ∧ ([gE, gE], 1) ∈ kmOv.keys ∧
    [gE] ≠ [gE, gE] ∧ seqIsPrefixOf [gE] [gE, gE] = true ∧
    (KeymapHandler.runKeys kmOv ⟨[], 0⟩ [gE]).2 = [([], some 0)] ∧
    ((KeymapHandler.runKeys kmOv ⟨[], 0⟩ [gE]).1).pending = [] ∧
    (KeymapHandler.runKeys kmOv ⟨[], 0⟩ [gE, gE]).2 =
      [([], some 0), ([], some 0)] := by
  decide

/-- C4 amended: when a bound sequence K is a strict prefix of another
bound sequence K2 and no other binding is a proper prefix of K, feeding
K one event at a time (which is also what feeding K2's first `len K`
events does) yields an empty slice and no action on the first
`len K - 1` steps and K's action — immediately, with an empty slice and
no timeout involved — on the step consuming K's final event; the
shorter binding fires at once and shadows the longer one. -/
theorem claim_C4_amended_shorter_binding_fires {A : Type} (km : Keymap A)
    (K K2 : List KeyEvent) (a b : A) (hmem : (K, a) ∈ km.keys)
    (hmem2 : (K2, b) ∈ km.keys) (hpre : seqIsPrefixOf K K2 = true)
    (hne12 : K ≠ K2) (hK : K ≠ [])
    (hpref : ∀ p ∈ km.keys, p.1 ≠ K → seqIsPrefixOf p.1 K = false) :
    KeymapHandler.runKeys km ⟨[], 0⟩ K =
      (⟨K, K.length⟩,
        List.replicate (K.length - 1) ([], none) ++ [([], some a)]) := by
  have hpref2 : ∀ p ∈ km.keys, p.1 ≠ K → ¬ (p.1 <+: K) := by
    intro p hp hpne hp2
    rw [← seqIsPrefixOf_iff] at hp2
    rw [hpref p hp hpne] at hp2
    exact Bool.noConfusion hp2
  exact runKeys_feeds_binding km K a hmem hpref2 K [] rfl hK

theorem claim_C4_witness :
    KeymapHandler.runKeys kmOv ⟨[], 0⟩ [gE] = (⟨[gE], 1⟩, [([], some 0)]) := by
  have h := claim_C4_amended_shorter_binding_fires kmOv [gE] [gE, gE] 0 1
    (by decide) (by decide) (by decide) (by decide) (by decide) (by decide)
  exact h

/-- C5 counterexample: with "dd" and "j" bound, feeding 'd' then 'j'
makes the second step return the non-empty slice `['d']` together with
the action bound to "j" — a single step with both a non-empty
passthrough slice and a present action, refuting "a single step never
returns a non-empty passthrough slice together with a present
action". -/
theorem claim_C5_counterexample :
    (KeymapHandler.runKeys kmDJ ⟨[], 0⟩ [dE, jE]).2 =
      [([], none), ([dE], some 1)] ∧
    ((KeymapHandler.runKeys kmDJ ⟨[], 0⟩ [dE, jE]).2.any
      fun out => !out.1.isEmpty && out.2.isSome) = true := by
  decide

/-- C5 amended: both components may be empty (ambiguous prefix), and a
non-empty slice may accompany a present action: that happens exactly
when the matched suffix was preceded by skipped unmatchable events —
whenever a key step returns `(pt, some a)`, `pt` is the skipped prefix
of the buffer (every suffix starting inside `pt` classifies as
`NoMatch`) and the remainder of the buffer is the exact match yielding
`a`. -/
theorem claim_C5_amended_slice_with_action {A : Type} (km : Keymap A)
    (st : HandlerState) (e : KeyEvent) (pt : List KeyEvent) (a : A)
    (h : (KeymapHandler.next km st (.key e)).2 = some (pt, some a)) :
    pt = (st.pending ++ [e]).take pt.length ∧
    km.get ((st.pending ++ [e]).drop pt.length) = some (some a) ∧
    (∀ j, j < pt.length → km.get ((st.pending ++ [e]).drop j) = none) := by
  obtain ⟨hle, hmin, hhit, hfall⟩ :=
    resolveSkip_spec km (st.buffer.drop st.bufferSkip ++ [e])
  simp only [KeymapHandler.next, Option.some.injEq, Prod.mk.injEq] at h
  obtain ⟨hpt, hact⟩ := h
  have hne : (resolveSkip km (st.buffer.drop st.bufferSkip ++ [e])).1 ≠
      (st.buffer.drop st.bufferSkip ++ [e]).length := by
    intro hh
    rw [hfall hh] at hact
    exact Option.noConfusion hact
  have hlt := Nat.lt_of_le_of_ne hle hne
  have hlen : pt.length =
      (resolveSkip km (st.buffer.drop st.bufferSkip ++ [e])).1 := by
    rw [← hpt, List.length_take]
    exact Nat.min_eq_left hle
  simp only [HandlerState.pending]
  refine ⟨?_, ?_, ?_⟩
  · rw [hlen]
    exact hpt.symm
  · rw [hlen, hhit hlt, hact]
  · intro j hj
    rw [hlen] at hj
    exact hmin j hj

theorem claim_C5_witness :
    [dE] = [dE, jE].take 1 ∧
    kmDJ.get [jE] = some (some 1) ∧
    kmDJ.get [dE, jE] = none := by
  have h := claim_C5_amended_slice_with_action kmDJ ⟨[dE], 0⟩ jE [dE] 1
    (by decide)
  exact ⟨h.1, h.2.1, h.2.2 0 (by decide)⟩

/-- C6: the claim describes the intended `<MODS-SPECIAL>` grammar, but
the code's `key = alt((parse_char, parse_special))` tries the
single-alphanumeric-character parser first, and every string
`parse_special` accepts begins with an alphanumeric character, making
`parse_special` unreachable in the modified position (dead code):
`<C-Left>` fails to parse altogether (the claim requires
CONTROL+Left), `<C-5>` yields CONTROL+Char '5' (the claim requires
CONTROL+F 5), while the unmodified `<Left>` and the
modifier-plus-single-character `<S-G>` — the only bracketed form the
repository's own bindings use — still work. -/
theorem claim_C6_bracketed_special_broken :
    parse_key_sequence ['<', 'C', '-', 'L', 'e', 'f', 't', '>'] = none ∧
    parse_key_sequence ['<', 'C', '-', '5', '>'] =
      some [⟨KeyCode.Char '5', 2⟩] ∧
    parse_key_sequence ['<', 'L', 'e', 'f', 't', '>'] =
      some [⟨KeyCode.Left, 0⟩] ∧
    parse_key_sequence ['<', 'S', '-', 'G', '>'] =
      some [⟨KeyCode.Char 'G', 1⟩] := by
  decide

/-- C7: whenever the drained buffer is non-empty at the start of a call
and the timeout elapses instead of a key arriving, `next` returns the
entire current buffer as the slice with no action and schedules the
whole buffer for removal, so the following call drains to an empty
buffer. -/
theorem claim_C7_timeout_flush {A : Type} (km : Keymap A)
    (st : HandlerState) (hne : st.pending ≠ []) :
    KeymapHandler.next km st .timeout =
      (⟨st.pending, st.pending.length⟩, some (st.pending, none)) ∧
    (⟨st.pending, st.pending.length⟩ : HandlerState).pending = [] := by
  refine ⟨rfl, ?_⟩
  simp [HandlerState.pending]
  omega

theorem claim_C7_witness :
    KeymapHandler.next kmGJ ⟨[gE], 0⟩ NextInput.timeout =
      (⟨[gE], 1⟩, some ([gE], none)) ∧
    (⟨[gE], 1⟩ : HandlerState).pending = [] := by
  have h := claim_C7_timeout_flush kmGJ ⟨[gE], 0⟩ (by decide)
  exact h

/-- C8: for any pattern of key deliveries and timeout expirations after
which the buffer is fully resolved, concatenating each step's surfaced
events — the returned passthrough slice plus, when an action fired, the
key sequence it consumed — reproduces the delivered key events exactly
once each, in their original order. -/
theorem claim_C8_conservation {A : Type} (km : Keymap A)
    (inputs : List NextInput)
    (hdone : ((KeymapHandler.runFlow km ⟨[], 0⟩ inputs).1).pending = []) :
    (KeymapHandler.runFlow km ⟨[], 0⟩ inputs).2.flatten = keysOf inputs := by
  have h := runFlow_conservation km inputs ⟨[], 0⟩
  rw [hdone, List.append_nil] at h
  exact h

theorem claim_C8_witness :
    (KeymapHandler.runFlow kmGJ ⟨[], 0⟩
      [NextInput.key gE, NextInput.key gE]).2.flatten =
      keysOf [NextInput.key gE, NextInput.key gE] :=
  claim_C8_conservation kmGJ [NextInput.key gE, NextInput.key gE] (by decide)

/-- C9: after every completed key or timeout call (closure instead ends
the stream), the retained part of the buffer is either empty or,
excluding its most recently appended event, a prefix of some binding of
the keymap queried in that call, and its length is bounded by the
longest bound sequence of that keymap. -/
theorem claim_C9_buffer_invariant {A : Type} (km : Keymap A)
    (st : HandlerState) (inp : NextInput) (hinp : inp ≠ NextInput.closed) :
    ((KeymapHandler.next km st inp).1).pending = [] ∨
    ((∃ p ∈ km.keys,
        ((KeymapHandler.next km st inp).1).pending.dropLast <+: p.1) ∧
      ((KeymapHandler.next km st inp).1).pending.length ≤ maxBindingLen km) := by
  cases inp with
  | closed => exact absurd rfl hinp
  | timeout =>
    left
    simp [KeymapHandler.next, HandlerState.pending]
    omega
  | key e =>
    obtain ⟨hle, hmin, hhit, hfall⟩ :=
      resolveSkip_spec km (st.buffer.drop st.bufferSkip ++ [e])
    simp only [KeymapHandler.next, HandlerState.pending]
    cases hr : (resolveSkip km (st.buffer.drop st.bufferSkip ++ [e])).2 with
    | some a =>
      left
      simp
    | none =>
      rcases Nat.eq_or_lt_of_le hle with heq | hlt
      · left
        simp [heq]
      · right
        have hsome := hhit hlt
        rw [hr] at hsome
        obtain ⟨p, hp, hpre⟩ :=
          exists_prefix_of_getL_some_none km.keys _ km.sorted hsome
        simp only [Option.isSome_none, Bool.false_eq_true, if_false]
        refine ⟨⟨p, hp, isPrefix_dropLast hpre⟩, ?_⟩
        exact Nat.le_trans (List.IsPrefix.length_le hpre)
          (length_le_maxBindingLen km p hp)

theorem claim_C9_witness :
    ((KeymapHandler.next kmGJ ⟨[], 0⟩ (NextInput.key gE)).1).pending = [] ∨
    ((∃ p ∈ kmGJ.keys,
        ((KeymapHandler.next kmGJ ⟨[], 0⟩
          (NextInput.key gE)).1).pending.dropLast <+: p.1) ∧
      ((KeymapHandler.next kmGJ ⟨[], 0⟩
        (NextInput.key gE)).1).pending.length ≤ maxBindingLen kmGJ) :=
  claim_C9_buffer_invariant kmGJ ⟨[], 0⟩ (NextInput.key gE) (by decide)

/-- C10: when the channel is closed and drained, `next` returns `none`
(end of stream) even if the buffer still holds deferred events: the
step keeps them in the state but reports nothing, and any number of
further calls against the closed channel surface no event whatsoever —
the buffered events are silently discarded. -/
theorem claim_C10_closed_discards {A : Type} (km : Keymap A)
    (st : HandlerState) :
    KeymapHandler.next km st .closed = (⟨st.pending, 0⟩, none) ∧
    ∀ n, (KeymapHandler.runFlow km st
      (List.replicate n NextInput.closed)).2.flatten = [] := by
  refine ⟨rfl, ?_⟩
  intro n
  induction n generalizing st with
  | zero => simp [KeymapHandler.runFlow]
  | succ n ih =>
    rw [List.replicate_succ]
    simp only [KeymapHandler.runFlow, List.flatten_cons]
    rw [ih]
    simp [KeymapHandler.stepFlow, KeymapHandler.next]

end CarrierPigeon
